import Mathlib

/-!
Shallow embedding of the core of `cal_exporter` (file `src/cal_exporter/filters.py`
and the `CalendarEvent` record of `src/cal_exporter/models.py`).

Modelling choices:
* A Python `str` is modelled as `List Char`; `str.strip` / `str.lower` are
  modelled over the ASCII whitespace / case core of Python's Unicode behaviour.
* A Python `set` of strings is a `Finset (List Char)`.
* `datetime` values are a plain record of calendar fields plus an optional
  UTC-offset (`tzinfo`); the ambient local timezone and the ambient clock
  (`tzlocal()`, `datetime.now`) are explicit parameters.
* The third-party general-purpose parser `dateutil.parser.parse` (an external
  collaborator, not part of this repository) is an explicit function parameter
  `duParse`; `IsoGrammarParse` below instantiates it on the ISO forms
  `YYYY-MM-DD` and `YYYY-MM-DDTHH:MM` named by the spec.
* A Python function that raises `ValueError` is modelled with `Option`.
* `filter_events` mutates matching events in place; it is modelled as a pair
  `(post-state of the input list, returned filtered list)`.
-/

/-- Python whitespace characters (`str.strip` default set, ASCII core). -/
def isPySpace (c : Char) : Bool :=
  c == ' ' || c == '\t' || c == '\n' || c == '\r' || c == '\x0b' || c == '\x0c'

/-- Model of Python `str.strip()`: drop whitespace from both ends. -/
def pyStrip (l : List Char) : List Char :=
  ((l.dropWhile isPySpace).reverse.dropWhile isPySpace).reverse

/-- Model of Python `str.lower()` (ASCII core). -/
def pyLower (l : List Char) : List Char :=
  l.map Char.toLower

/-- A regex word character `\w` (ASCII core: letters, digits, underscore). -/
def isWordChar (c : Char) : Bool :=
  c.isAlphanum || c == '_'

/-- The scanning loop of `re.findall` for the pattern `#\w+`: left to right,
non-overlapping, each match maximal (`\w+` is greedy). The `fuel` argument
(one unit per character consumed) only makes the recursion structural. -/
def scanTagsFuel : Nat → List Char → List (List Char)
  | 0, _ => []
  | _ + 1, [] => []
  | fuel + 1, c :: rest =>
    if c = '#' ∧ rest.takeWhile isWordChar ≠ [] then
      ('#' :: rest.takeWhile isWordChar) :: scanTagsFuel fuel (rest.dropWhile isWordChar)
    else
      scanTagsFuel fuel rest

/-- `re.findall` of `#\w+`: run the scanning loop with enough fuel. -/
def scanTags (l : List Char) : List (List Char) :=
  scanTagsFuel l.length l

/-- `extract_hashtags` from `filters.py`: `None` or empty text gives `[]`,
otherwise `re.findall` of `#\w+` over the text. -/
def extract_hashtags : Option (List Char) → List (List Char)
  | none => []
  | some t => if t = [] then [] else scanTags t

/-- `_normalize_hashtag` from `filters.py`: strip, ensure a leading `#`
(`tag.startswith("#")` is a head check), lowercase the whole result. -/
def _normalize_hashtag (tag : List Char) : List Char :=
  pyLower (if (pyStrip tag).head? = some '#' then pyStrip tag else '#' :: pyStrip tag)

/-- Model of Python `str.split(",")`. -/
def splitOnComma : List Char → List (List Char)
  | [] => [[]]
  | c :: rest =>
    if c = ',' then [] :: splitOnComma rest
    else
      match splitOnComma rest with
      | [] => [[c]]
      | p :: ps => (c :: p) :: ps

/-- `_parse_hashtag_groups` from `filters.py`: each search term yields one
AND-group; a term with a comma is split and each piece normalized. -/
def _parse_hashtag_groups (hashtags : List (List Char)) : List (Finset (List Char)) :=
  hashtags.map fun search_term =>
    if ',' ∈ search_term then
      ((splitOnComma search_term).map _normalize_hashtag).toFinset
    else
      {_normalize_hashtag search_term}

/-- `CalendarEvent` from `models.py`; `start`/`endT` model the `start`/`end`
instants as points on an absolute timeline (comparison of aware datetimes). -/
structure CalendarEvent where
  summary : List Char
  start : Int
  endT : Int
  description : Option (List Char)
  location : Option (List Char)
  uid : Option (List Char)
  hashtags : List (List Char)
deriving DecidableEq

/-- The per-event lowered hashtag set `{t.lower() for t in extract_hashtags(d)}`. -/
def lowerTagSet (e : CalendarEvent) : Finset (List Char) :=
  ((extract_hashtags e.description).map pyLower).toFinset

/-- Loop body of `filter_events`: first component is the post-state of the
scanned list (matching events got `hashtags` overwritten in place), second is
the accumulated `filtered` result. -/
def filterEventsGo (gs : List (Finset (List Char))) :
    List CalendarEvent → List CalendarEvent × List CalendarEvent
  | [] => ([], [])
  | e :: es =>
    if gs.any (fun and_group => decide (and_group ⊆ lowerTagSet e)) then
      ({ e with hashtags := extract_hashtags e.description } :: (filterEventsGo gs es).1,
       { e with hashtags := extract_hashtags e.description } :: (filterEventsGo gs es).2)
    else
      (e :: (filterEventsGo gs es).1, (filterEventsGo gs es).2)

/-- `filter_events` from `filters.py`. Returns the pair
`(post-state of the input list, returned filtered list)`; with no search terms
the input is returned unchanged and nothing is mutated. -/
def filter_events (events : List CalendarEvent) (hashtags : List (List Char)) :
    List CalendarEvent × List CalendarEvent :=
  if hashtags = [] then (events, events)
  else filterEventsGo (_parse_hashtag_groups hashtags) events

/-- `filter_by_date_range` from `filters.py`: keep events with
`event.start <= end and event.end >= start`. -/
def filter_by_date_range (events : List CalendarEvent) (start endT : Int) :
    List CalendarEvent :=
  match events with
  | [] => []
  | e :: es =>
    if e.start ≤ endT ∧ e.endT ≥ start then e :: filter_by_date_range es start endT
    else filter_by_date_range es start endT

/-- A Python `datetime`: calendar fields plus optional UTC offset in minutes
(`tzinfo = none` is a naive datetime). -/
structure PyDateTime where
  year : Nat
  month : Nat
  day : Nat
  hour : Nat
  minute : Nat
  second : Nat
  microsecond : Nat
  tzinfo : Option Int
deriving DecidableEq

/-- Greedy match of one regex token `\d{4}-\d{2}-\d{2}(?:T\d{2}:\d{2})?`
against the head of the input, returning the token and the remainder. The
greedy-with-no-backtracking reading is exact here: when the optional time part
is taken or fails, the date-only alternative would next require `:` or end of
string but sees `T`, so the regex engine's backtracking can never succeed. -/
def matchDateTok : List Char → Option (List Char × List Char)
  | y1 :: y2 :: y3 :: y4 :: '-' :: m1 :: m2 :: '-' :: d1 :: d2 :: rest =>
    if ([y1, y2, y3, y4, m1, m2, d1, d2].all Char.isDigit) then
      match rest with
      | 'T' :: h1 :: h2 :: ':' :: n1 :: n2 :: rest2 =>
        if ([h1, h2, n1, n2].all Char.isDigit) then
          some ([y1, y2, y3, y4, '-', m1, m2, '-', d1, d2, 'T', h1, h2, ':', n1, n2], rest2)
        else none
      | _ => some ([y1, y2, y3, y4, '-', m1, m2, '-', d1, d2], rest)
    else none
  | _ => none

/-- `_split_date_range` from `filters.py`: full anchored match of
`^(\d{4}-\d{2}-\d{2}(?:T\d{2}:\d{2})?):(\d{4}-\d{2}-\d{2}(?:T\d{2}:\d{2})?)$`
gives the two captured tokens, anything else gives the original string back. -/
def _split_date_range (date_string : List Char) : List (List Char) :=
  match matchDateTok date_string with
  | some (g1, ':' :: rest2) =>
    match matchDateTok rest2 with
    | some (g2, []) => [g1, g2]
    | _ => [date_string]
  | _ => [date_string]

/-- `_parse_single_date` from `filters.py`, with the external `dateutil`
parser abstracted as `duParse` and the local timezone as `localTz`:
attach the local timezone to naive results, and when the string has no `T`
and no space force the time-of-day to `00:00:00.000000` (`is_start`) or
`23:59:59.000000` (otherwise). `none` models the raised `ValueError`. -/
def _parse_single_date (duParse : List Char → Option PyDateTime) (localTz : Int)
    (date_string : List Char) (is_start : Bool) : Option PyDateTime :=
  match duParse date_string with
  | none => none
  | some dt0 =>
    let dt := if dt0.tzinfo = none then { dt0 with tzinfo := some localTz } else dt0
    if 'T' ∉ date_string ∧ ' ' ∉ date_string then
      if is_start then
        some { dt with hour := 0, minute := 0, second := 0, microsecond := 0 }
      else
        some { dt with hour := 23, minute := 59, second := 59, microsecond := 0 }
    else
      some dt

/-- The char list of the literal `"today"`. -/
def todayLit : List Char := ['t', 'o', 'd', 'a', 'y']

/-- `parse_date_range` from `filters.py`, with the ambient clock
`datetime.now(local_tz)` passed in as `now`. -/
def parse_date_range (duParse : List Char → Option PyDateTime) (localTz : Int)
    (now : PyDateTime) (date_string : List Char) : Option (PyDateTime × PyDateTime) :=
  if pyLower (pyStrip date_string) = todayLit then
    some ({ now with hour := 0, minute := 0, second := 0, microsecond := 0 },
          { { now with hour := 0, minute := 0, second := 0, microsecond := 0 } with
            hour := 23, minute := 59, second := 59 })
  else
    match (if ':' ∈ pyStrip date_string then _split_date_range (pyStrip date_string)
           else [pyStrip date_string]) with
    | [a, b] =>
      match _parse_single_date duParse localTz a true,
            _parse_single_date duParse localTz b false with
      | some st, some en => some (st, en)
      | _, _ => none
    | _ =>
      match _parse_single_date duParse localTz (pyStrip date_string) true with
      | some st => some (st, { st with hour := 23, minute := 59, second := 59 })
      | none => none

/-- Numeric value of a digit string. -/
def digitsToNat (cs : List Char) : Nat :=
  cs.foldl (fun n c => n * 10 + (c.toNat - '0'.toNat)) 0

/-- Model of the external general-purpose date parser (`dateutil.parser.parse`)
restricted to the two ISO grammars named by the spec, `YYYY-MM-DD` and
`YYYY-MM-DDTHH:MM`: a bare date parses to midnight, both forms parse naive
(no `tzinfo`). Used to instantiate the `duParse` parameter on concrete inputs. -/
def IsoGrammarParse : List Char → Option PyDateTime
  | y1 :: y2 :: y3 :: y4 :: '-' :: m1 :: m2 :: '-' :: d1 :: d2 :: rest =>
    if ([y1, y2, y3, y4, m1, m2, d1, d2].all Char.isDigit) then
      match rest with
      | [] =>
        some ⟨digitsToNat [y1, y2, y3, y4], digitsToNat [m1, m2], digitsToNat [d1, d2],
              0, 0, 0, 0, none⟩
      | 'T' :: h1 :: h2 :: ':' :: n1 :: n2 :: [] =>
        if ([h1, h2, n1, n2].all Char.isDigit) then
          some ⟨digitsToNat [y1, y2, y3, y4], digitsToNat [m1, m2], digitsToNat [d1, d2],
                digitsToNat [h1, h2], digitsToNat [n1, n2], 0, 0, none⟩
        else none
      | _ => none
    else none
  | _ => none

/-- The side effect of a match in `filter_events`: overwrite `hashtags` with
the hashtags freshly re-extracted (original case) from the description. -/
def rewriteTags (e : CalendarEvent) : CalendarEvent :=
  { e with hashtags := extract_hashtags e.description }

/-- The claim-side matching predicate of the hashtag filter: some AND-group is
a subset of the event's lowercased extracted-hashtag set. -/
def MatchesSomeGroup (gs : List (Finset (List Char))) (e : CalendarEvent) : Prop :=
  ∃ g ∈ gs, g ⊆ lowerTagSet e

instance (gs : List (Finset (List Char))) (e : CalendarEvent) :
    Decidable (MatchesSomeGroup gs e) :=
  List.decidableBEx _ gs

/-- The single-date branch of `parse_date_range`: parse as range start, and
clobber the end's time-of-day to `23:59:59` (microsecond kept). -/
def singleDateRange (duParse : List Char → Option PyDateTime) (localTz : Int)
    (t : List Char) : Option (PyDateTime × PyDateTime) :=
  match _parse_single_date duParse localTz t true with
  | some st => some (st, { st with hour := 23, minute := 59, second := 59 })
  | none => none

/-- The two-token branch of `parse_date_range`: parse the first token as range
start (`is_start = true`) and the second as range end (`is_start = false`). -/
def twoDateRange (duParse : List Char → Option PyDateTime) (localTz : Int)
    (a b : List Char) : Option (PyDateTime × PyDateTime) :=
  match _parse_single_date duParse localTz a true,
        _parse_single_date duParse localTz b false with
  | some st, some en => some (st, en)
  | _, _ => none

/-- No position of `g` starts a `#\w+` match: no `#` immediately followed by a
word character. -/
def NoTagStart (g : List Char) : Prop :=
  ∀ n : Nat, ¬ (g[n]? = some '#' ∧ ∃ c, g[n + 1]? = some c ∧ isWordChar c = true)

/-- Declarative reading of `re.findall` for `#\w+`: the text decomposes into
match-free gaps and the listed tokens in order of appearance, each token being
`#` plus a non-empty run of word characters that is maximal (the next character
is not a word character). -/
inductive FindallTags : List Char → List (List Char) → Prop
  | nil (g : List Char) : NoTagStart g → FindallTags g []
  | cons (g w rest : List Char) (ts : List (List Char)) :
      NoTagStart g → w ≠ [] → (∀ c ∈ w, isWordChar c = true) →
      (∀ c, rest.head? = some c → isWordChar c = false) →
      FindallTags rest ts →
      FindallTags (g ++ '#' :: (w ++ rest)) (('#' :: w) :: ts)

/-- A fixed ambient clock value for concrete instantiations. -/
def now0 : PyDateTime := ⟨2026, 3, 14, 15, 9, 26, 535897, some 60⟩

/-- A concrete single-datetime input (colon present, strict range pattern
fails, time-of-day component present). -/
def exDT : List Char := "2026-02-01T09:30".data

/-- A well-formed event spanning the whole inverted range used against C3. -/
def evSpan : CalendarEvent :=
  ⟨"span".data, 0, 20, none, none, none, []⟩

/-- An event whose description carries only `#meeting`. -/
def evMeet : CalendarEvent :=
  ⟨"meet".data, 2, 3, some "sync #meeting".data, none, none, ["#stale".data]⟩

lemma filter_by_date_range_eq_filter (E : List CalendarEvent) (st en : Int) :
    filter_by_date_range E st en = E.filter fun e => decide (e.start ≤ en ∧ e.endT ≥ st) := by
  induction E with
  | nil => rfl
  | cons e es ih =>
    rw [filter_by_date_range, List.filter_cons]
    by_cases h : e.start ≤ en ∧ e.endT ≥ st
    · rw [if_pos h, if_pos (by exact decide_eq_true h), ih]
    · rw [if_neg h, if_neg (by simpa using h), ih]

/-- Claim C5: `filter_by_date_range` returns exactly the events satisfying the
inclusive overlap test `event.start <= end AND event.end >= start`, in input
order (a sublist of the input), and every returned event is an unchanged
element of the input. -/
theorem filter_by_date_range_ok (E : List CalendarEvent) (st en : Int) :
    filter_by_date_range E st en = E.filter (fun e => decide (e.start ≤ en ∧ e.endT ≥ st)) ∧
    (filter_by_date_range E st en).Sublist E := by
  refine ⟨filter_by_date_range_eq_filter E st en, ?_⟩
  rw [filter_by_date_range_eq_filter E st en]
  exact List.filter_sublist E

/-- Claim C3 is false as stated: with the inverted range `start = 10 > 5 = end`
the well-formed event `evSpan` (span `[0, 20]`) passes the overlap test, so the
result is not the empty list. -/
theorem filter_by_date_range_inverted_cex :
    (5 : Int) < 10 ∧ filter_by_date_range [evSpan] 10 5 ≠ [] := by
  refine ⟨by decide, ?_⟩
  decide

/-- Claim C3 amended: an inverted range (`end < start`) does not fail, and it
keeps exactly the events whose span covers both bounds (`event.start <= end`
and `event.end >= start`); the result need not be empty. -/
theorem filter_by_date_range_inverted_ok (E : List CalendarEvent) (st en : Int)
    (h : en < st) :
    ∀ e ∈ filter_by_date_range E st en, e.start ≤ en ∧ en < st ∧ st ≤ e.endT := by
  intro e he
  rw [filter_by_date_range_eq_filter] at he
  have hp' := of_decide_eq_true ((List.mem_filter.mp he).2)
  exact ⟨hp'.1, h, hp'.2⟩

/-- Concrete instantiation of `filter_by_date_range_inverted_ok`. -/
theorem filter_by_date_range_inverted_ok_witness :
    evSpan.start ≤ 5 ∧ (5 : Int) < 10 ∧ (10 : Int) ≤ evSpan.endT :=
  filter_by_date_range_inverted_ok [evSpan] 10 5 (by decide) evSpan (by decide)

lemma mem_of_mem_dropWhile {α} {p : α → Bool} {c : α} {l : List α}
    (h : c ∈ l.dropWhile p) : c ∈ l :=
  (List.dropWhile_sublist p).subset h

lemma mem_dropWhile_of_mem {α} {p : α → Bool} {c : α} (hp : p c = false) :
    ∀ {l : List α}, c ∈ l → c ∈ l.dropWhile p := by
  intro l
  induction l with
  | nil => intro h; exact absurd h (List.not_mem_nil c)
  | cons a as ih =>
    intro h
    rw [List.dropWhile_cons]
    by_cases ha : p a = true
    · rw [if_pos ha]
      rcases List.mem_cons.mp h with rfl | hmem
      · rw [hp] at ha; cases ha
      · exact ih hmem
    · rw [if_neg ha]
      exact h

lemma mem_of_mem_pyStrip {c : Char} {l : List Char} (h : c ∈ pyStrip l) : c ∈ l := by
  unfold pyStrip at h
  rw [List.mem_reverse] at h
  have h2 := mem_of_mem_dropWhile h
  rw [List.mem_reverse] at h2
  exact mem_of_mem_dropWhile h2

lemma mem_pyStrip_of_mem {c : Char} {l : List Char} (h : c ∈ l)
    (hc : isPySpace c = false) : c ∈ pyStrip l := by
  unfold pyStrip
  rw [List.mem_reverse]
  apply mem_dropWhile_of_mem hc
  rw [List.mem_reverse]
  exact mem_dropWhile_of_mem hc h

lemma colon_not_today {l : List Char} (h : ':' ∈ l) : pyLower l ≠ todayLit := by
  intro heq
  have hmem : Char.toLower ':' ∈ pyLower l := List.mem_map_of_mem Char.toLower h
  rw [heq] at hmem
  revert hmem
  decide

/-- Claim C8: on the literal token `today` (case-insensitive, after stripping)
`parse_date_range` returns local midnight of the current day as start and
`23:59:59` of the same day as end, the end carrying no second-fraction. -/
theorem parse_date_range_today_ok (duParse : List Char → Option PyDateTime)
    (localTz : Int) (now : PyDateTime) (s : List Char)
    (h : pyLower (pyStrip s) = todayLit) :
    parse_date_range duParse localTz now s =
      some ({ now with hour := 0, minute := 0, second := 0, microsecond := 0 },
            { now with hour := 23, minute := 59, second := 59, microsecond := 0 }) := by
  unfold parse_date_range
  rw [if_pos h]

/-- Concrete instantiation of `parse_date_range_today_ok`. -/
theorem parse_date_range_today_ok_witness :
    parse_date_range IsoGrammarParse 60 now0 " ToDay ".data =
      some ({ now0 with hour := 0, minute := 0, second := 0, microsecond := 0 },
            { now0 with hour := 23, minute := 59, second := 59, microsecond := 0 }) :=
  parse_date_range_today_ok IsoGrammarParse 60 now0 " ToDay ".data (by decide)

/-- Claim C2 is false as stated: on the single-datetime input
`2026-02-01T09:30` (colon present, strict range pattern fails) the end bound is
not the input re-parsed with end-of-day semantics (`is_start = false` keeps the
time-of-day `09:30`); `parse_date_range` clobbers the end to `23:59:59`. -/
theorem parse_date_range_single_cex :
    (':' ∈ exDT ∧ _split_date_range (pyStrip exDT) = [pyStrip exDT]) ∧
    parse_date_range IsoGrammarParse 60 now0 exDT ≠
      twoDateRange IsoGrammarParse 60 (pyStrip exDT) (pyStrip exDT) := by
  refine ⟨⟨by decide, by decide⟩, ?_⟩
  decide

lemma parse_date_range_fallback (duParse : List Char → Option PyDateTime)
    (localTz : Int) (now : PyDateTime) (s : List Char)
    (ht : pyLower (pyStrip s) ≠ todayLit)
    (hc : ':' ∉ s ∨ _split_date_range (pyStrip s) = [pyStrip s]) :
    parse_date_range duParse localTz now s = singleDateRange duParse localTz (pyStrip s) := by
  unfold parse_date_range
  rw [if_neg ht]
  rcases hc with hc | hc
  · have hns : ':' ∉ pyStrip s := fun hmem => hc (mem_of_mem_pyStrip hmem)
    rw [if_neg hns]
    rfl
  · by_cases hmem : ':' ∈ pyStrip s
    · rw [if_pos hmem, hc]
      rfl
    · rw [if_neg hmem]
      rfl

/-- Claim C2 amended: on a plain single date/datetime spec (no colon, or the
strict range pattern failed) `parse_date_range` parses the stripped input once
with start-of-day semantics and builds the end bound from that same value by
replacing hour, minute and second with `23:59:59` (keeping the microsecond);
when the input has a time component the end does not keep the parsed
time-of-day. -/
theorem parse_date_range_single_ok (duParse : List Char → Option PyDateTime)
    (localTz : Int) (now : PyDateTime) (s : List Char)
    (ht : pyLower (pyStrip s) ≠ todayLit)
    (hc : ':' ∉ s ∨ _split_date_range (pyStrip s) = [pyStrip s]) :
    parse_date_range duParse localTz now s = singleDateRange duParse localTz (pyStrip s) :=
  parse_date_range_fallback duParse localTz now s ht hc

/-- Concrete instantiation of `parse_date_range_single_ok`. -/
theorem parse_date_range_single_ok_witness :
    parse_date_range IsoGrammarParse 60 now0 "2026-02-15".data =
      singleDateRange IsoGrammarParse 60 (pyStrip "2026-02-15".data) :=
  parse_date_range_single_ok IsoGrammarParse 60 now0 "2026-02-15".data
    (by decide) (Or.inl (by decide))

/-- Claim C4: on an input containing a colon, if the stripped string matches
the strict range pattern the two captured tokens are parsed as range start and
range end; if it does not match, the input is handled as a single date string. -/
theorem parse_date_range_colon_ok (duParse : List Char → Option PyDateTime)
    (localTz : Int) (now : PyDateTime) (s : List Char) (hc : ':' ∈ s) :
    (∀ a b, _split_date_range (pyStrip s) = [a, b] →
        parse_date_range duParse localTz now s = twoDateRange duParse localTz a b) ∧
    (_split_date_range (pyStrip s) = [pyStrip s] →
        parse_date_range duParse localTz now s = singleDateRange duParse localTz (pyStrip s)) := by
  have hcs : ':' ∈ pyStrip s := mem_pyStrip_of_mem hc (by decide)
  have ht : pyLower (pyStrip s) ≠ todayLit := colon_not_today hcs
  constructor
  · intro a b hab
    unfold parse_date_range
    rw [if_neg ht, if_pos hcs, hab]
    rfl
  · intro hone
    exact parse_date_range_fallback duParse localTz now s ht (Or.inr hone)

/-- Concrete instantiation of `parse_date_range_colon_ok` (both tokens of a
strict-pattern range get parsed, first as start, second as end). -/
theorem parse_date_range_colon_ok_witness :
    parse_date_range IsoGrammarParse 60 now0 "2026-02-01:2026-02-28".data =
      twoDateRange IsoGrammarParse 60 "2026-02-01".data "2026-02-28".data :=
  (parse_date_range_colon_ok IsoGrammarParse 60 now0 "2026-02-01:2026-02-28".data
      (by decide)).1 "2026-02-01".data "2026-02-28".data (by decide)

lemma splitOnComma_of_not_mem {t : List Char} (h : ',' ∉ t) : splitOnComma t = [t] := by
  induction t with
  | nil => rfl
  | cons c cs ih =>
    have hc : ¬ c = ',' := fun hh => h (by rw [hh]; exact List.mem_cons_self ',' cs)
    have hcs : ',' ∉ cs := fun hh => h (List.mem_cons_of_mem c hh)
    rw [splitOnComma, if_neg hc, ih hcs]

lemma pyLower_hash_cons (l : List Char) : pyLower ('#' :: l) = '#' :: pyLower l := by
  rw [pyLower, List.map_cons]
  rfl

/-- Claim C7: `_parse_hashtag_groups` yields one AND-group per term in input
order, the group of a term being the set of the normalized comma-separated
pieces (for a comma-less term, `split` gives back the whole term, so the group
is the singleton of its normalized form); normalization yields a `#`-headed
tag, lowercasing a term that already starts with `#` and prepending `#` before
lowercasing otherwise. -/
theorem parse_hashtag_groups_ok (terms : List (List Char)) :
    (_parse_hashtag_groups terms).length = terms.length ∧
    (∀ (i : Nat) (t : List Char), terms[i]? = some t →
      (_parse_hashtag_groups terms)[i]? =
        some (((splitOnComma t).map _normalize_hashtag).toFinset)) ∧
    (∀ raw, (∃ r, _normalize_hashtag raw = '#' :: r) ∧
      (∀ r, pyStrip raw = '#' :: r → _normalize_hashtag raw = pyLower ('#' :: r)) ∧
      ((∀ r, pyStrip raw ≠ '#' :: r) →
        _normalize_hashtag raw = '#' :: pyLower (pyStrip raw))) := by
  refine ⟨by rw [_parse_hashtag_groups, List.length_map], ?_, ?_⟩
  · intro i t hit
    rw [_parse_hashtag_groups, List.getElem?_map, hit, Option.map_some']
    by_cases hcm : ',' ∈ t
    · rw [if_pos hcm]
    · rw [if_neg hcm, splitOnComma_of_not_mem hcm, List.map_cons, List.map_nil]
      rw [List.toFinset_cons, List.toFinset_nil, insert_emptyc_eq]
  · intro raw
    by_cases hh : (pyStrip raw).head? = some '#'
    · obtain ⟨r, hr⟩ : ∃ r, pyStrip raw = '#' :: r := by
        cases hs : pyStrip raw with
        | nil => rw [hs] at hh; cases hh
        | cons a as =>
          rw [hs, List.head?_cons, Option.some_inj] at hh
          exact ⟨as, by rw [hh]⟩
      refine ⟨⟨pyLower r, ?_⟩, ?_, ?_⟩
      · rw [_normalize_hashtag, if_pos hh, hr, pyLower_hash_cons]
      · intro r' hr'
        rw [_normalize_hashtag, if_pos hh, hr']
      · intro hno
        exact absurd hr (hno r)
    · have hne : ∀ r, pyStrip raw ≠ '#' :: r := by
        intro r hcontra
        exact hh (by rw [hcontra, List.head?_cons])
      refine ⟨⟨pyLower (pyStrip raw), ?_⟩, ?_, ?_⟩
      · rw [_normalize_hashtag, if_neg hh, pyLower_hash_cons]
      · intro r hr
        exact absurd hr (hne r)
      · intro _
        rw [_normalize_hashtag, if_neg hh, pyLower_hash_cons]

/-- Concrete instantiation of `parse_hashtag_groups_ok`: the comma term
`zzp, Work` yields the AND-group of its normalized pieces. -/
theorem parse_hashtag_groups_ok_witness :
    (_parse_hashtag_groups ["zzp, Work".data])[0]? =
      some (((splitOnComma "zzp, Work".data).map _normalize_hashtag).toFinset) :=
  (parse_hashtag_groups_ok ["zzp, Work".data]).2.1 0 "zzp, Work".data (by decide)

lemma any_subset_eq_decide (gs : List (Finset (List Char))) (e : CalendarEvent) :
    (gs.any fun and_group => decide (and_group ⊆ lowerTagSet e)) =
      decide (MatchesSomeGroup gs e) := by
  cases h : (gs.any fun and_group => decide (and_group ⊆ lowerTagSet e)) with
  | true =>
    rcases List.any_eq_true.mp h with ⟨g, hg, hsub⟩
    exact (decide_eq_true ⟨g, hg, of_decide_eq_true hsub⟩).symm
  | false =>
    have hall := List.any_eq_false.mp h
    refine (decide_eq_false ?_).symm
    rintro ⟨g, hg, hsub⟩
    exact hall g hg (decide_eq_true hsub)

lemma filterEventsGo_snd (gs : List (Finset (List Char))) (E : List CalendarEvent) :
    (filterEventsGo gs E).2 =
      (E.filter fun e => gs.any fun and_group => decide (and_group ⊆ lowerTagSet e)).map
        rewriteTags := by
  induction E with
  | nil => rfl
  | cons e es ih =>
    rw [filterEventsGo, List.filter_cons]
    cases h : (gs.any fun and_group => decide (and_group ⊆ lowerTagSet e)) with
    | true => rw [if_pos rfl, if_pos rfl, List.map_cons, ih]; rfl
    | false => rw [if_neg Bool.false_ne_true, if_neg Bool.false_ne_true, ih]

lemma filterEventsGo_fst (gs : List (Finset (List Char))) (E : List CalendarEvent) :
    (filterEventsGo gs E).1 =
      E.map fun e =>
        if (gs.any fun and_group => decide (and_group ⊆ lowerTagSet e)) then rewriteTags e
        else e := by
  induction E with
  | nil => rfl
  | cons e es ih =>
    rw [filterEventsGo, List.map_cons]
    cases h : (gs.any fun and_group => decide (and_group ⊆ lowerTagSet e)) with
    | true => rw [if_pos rfl, if_pos rfl, ih]; rfl
    | false => rw [if_neg Bool.false_ne_true, if_neg Bool.false_ne_true, ih]

/-- Claim C1: with no search terms `filter_events` returns its input unchanged;
with search terms its returned list is exactly the input's matching events (an
AND-group of the parsed terms is a subset of the lowered extracted hashtag
set), in input order, each with `hashtags` overwritten by the re-extracted
original-case hashtags of its description. -/
theorem filter_events_selection_ok (E : List CalendarEvent) (T : List (List Char)) :
    (filter_events E T).2 =
      if T = [] then E
      else
        (E.filter fun e =>
            decide (MatchesSomeGroup (_parse_hashtag_groups T) e)).map rewriteTags := by
  by_cases hT : T = []
  · rw [if_pos hT, filter_events, if_pos hT]
  · rw [if_neg hT, filter_events, if_neg hT, filterEventsGo_snd]
    congr 1
    exact List.filter_congr fun e _ => any_subset_eq_decide (_parse_hashtag_groups T) e

lemma lowerTagSet_rewriteTags (e : CalendarEvent) :
    lowerTagSet (rewriteTags e) = lowerTagSet e := rfl

lemma rewriteTags_rewriteTags (e : CalendarEvent) :
    rewriteTags (rewriteTags e) = rewriteTags e := rfl

lemma filter_map_comm {α β} (f : α → β) (p : β → Bool) (l : List α) :
    (l.map f).filter p = (l.filter fun a => p (f a)).map f := by
  induction l with
  | nil => rfl
  | cons a as ih =>
    rw [List.map_cons, List.filter_cons, List.filter_cons]
    cases h : p (f a) with
    | true => rw [if_pos rfl, if_pos rfl, List.map_cons, ih]
    | false => rw [if_neg Bool.false_ne_true, if_neg Bool.false_ne_true, ih]

/-- Claim C9: `filter_events` is idempotent on its returned event list — a
second pass with the same terms over the first pass's output returns the same
sequence of events. -/
theorem filter_events_idempotent_ok (E : List CalendarEvent) (T : List (List Char)) :
    (filter_events (filter_events E T).2 T).2 = (filter_events E T).2 := by
  by_cases hT : T = []
  · rw [filter_events, filter_events, if_pos hT, if_pos hT]
  · rw [filter_events, filter_events, if_neg hT, if_neg hT,
      filterEventsGo_snd, filterEventsGo_snd, filter_map_comm]
    have hsame : ∀ e : CalendarEvent,
        ((_parse_hashtag_groups T).any fun and_group =>
          decide (and_group ⊆ lowerTagSet (rewriteTags e))) =
        ((_parse_hashtag_groups T).any fun and_group =>
          decide (and_group ⊆ lowerTagSet e)) := by
      intro e
      rw [lowerTagSet_rewriteTags]
    rw [List.filter_congr fun e _ => hsame e]
    rw [List.filter_eq_self.mpr fun e he => (List.mem_filter.mp he).2]
    rw [List.map_map]
    exact List.map_congr_left fun e _ => rewriteTags_rewriteTags e

/-- Claim C10: with a non-empty term list, an event of the input that does not
match any AND-group is left completely unchanged in the post-state of the
input list (its `hashtags` attribute keeps its prior value). -/
theorem filter_events_frame_ok (E : List CalendarEvent) (T : List (List Char))
    (hT : T ≠ []) (i : Nat) (e : CalendarEvent) (hi : E[i]? = some e)
    (hm : ¬ MatchesSomeGroup (_parse_hashtag_groups T) e) :
    (filter_events E T).1[i]? = some e := by
  rw [filter_events, if_neg hT, filterEventsGo_fst, List.getElem?_map, hi, Option.map_some']
  have hb : ((_parse_hashtag_groups T).any fun and_group =>
      decide (and_group ⊆ lowerTagSet e)) = false := by
    rw [any_subset_eq_decide]
    exact decide_eq_false hm
  rw [hb, if_neg Bool.false_ne_true]

/-- Concrete instantiation of `filter_events_frame_ok`: the event carrying
only `#meeting` is excluded by the term `#billable` and keeps its stale
`hashtags` value. -/
theorem filter_events_frame_ok_witness :
    (filter_events [evMeet] ["#billable".data]).1[0]? = some evMeet :=
  filter_events_frame_ok [evMeet] ["#billable".data] (by decide) 0 evMeet (by decide)
    (by decide)

lemma noTagStart_nil : NoTagStart [] := by
  intro n h
  rcases h with ⟨h1, _⟩
  cases h1

lemma noTagStart_cons {c : Char} {g : List Char} (hg : NoTagStart g)
    (hc : ∀ d, g[0]? = some d → ¬(c = '#' ∧ isWordChar d = true)) :
    NoTagStart (c :: g) := by
  intro n
  cases n with
  | zero =>
    rintro ⟨h1, d, h2, h3⟩
    rw [List.getElem?_cons_zero, Option.some_inj] at h1
    rw [List.getElem?_cons_succ] at h2
    exact hc d h2 ⟨h1, h3⟩
  | succ m =>
    rintro ⟨h1, d, h2, h3⟩
    rw [List.getElem?_cons_succ] at h1 h2
    exact hg m ⟨h1, d, h2, h3⟩

lemma head_fails_of_takeWhile_nil {p : Char → Bool} {l : List Char}
    (h : l.takeWhile p = []) : ∀ c, l.head? = some c → p c = false := by
  intro c hc
  cases l with
  | nil => cases hc
  | cons a as =>
    rw [List.head?_cons, Option.some_inj] at hc
    subst hc
    rw [List.takeWhile_cons] at h
    by_cases hp : p a = true
    · rw [if_pos hp] at h
      cases h
    · exact Bool.eq_false_iff.mpr hp

lemma dropWhile_head_fails {p : Char → Bool} {l : List Char} :
    ∀ c, (l.dropWhile p).head? = some c → p c = false := by
  induction l with
  | nil => intro c hc; cases hc
  | cons a as ih =>
    intro c hc
    rw [List.dropWhile_cons] at hc
    by_cases hp : p a = true
    · rw [if_pos hp] at hc
      exact ih c hc
    · rw [if_neg hp] at hc
      rw [List.head?_cons, Option.some_inj] at hc
      subst hc
      exact Bool.eq_false_iff.mpr hp

lemma findallTags_skip {c : Char} {s : List Char} {ts : List (List Char)}
    (h : FindallTags s ts)
    (hc : c = '#' → ∀ d, s.head? = some d → isWordChar d = false) :
    FindallTags (c :: s) ts := by
  cases h with
  | nil g hg =>
    refine FindallTags.nil (c :: s) (noTagStart_cons hg ?_)
    intro d hd
    rintro ⟨rfl, hw⟩
    have hhead : s.head? = some d := by
      cases s with
      | nil => cases hd
      | cons a s' =>
        rw [List.getElem?_cons_zero] at hd
        rw [List.head?_cons]
        exact hd
    rw [hc rfl d hhead] at hw
    cases hw
  | cons g w rest ts' hg hw hww hrest hrec =>
    have heq : c :: (g ++ '#' :: (w ++ rest)) = (c :: g) ++ '#' :: (w ++ rest) := rfl
    rw [heq]
    refine FindallTags.cons (c :: g) w rest ts' (noTagStart_cons hg ?_) hw hww hrest hrec
    intro d hd
    rintro ⟨rfl, hwd⟩
    have hhead : (g ++ '#' :: (w ++ rest)).head? = some d := by
      cases g with
      | nil => cases hd
      | cons a g' =>
        rw [List.getElem?_cons_zero] at hd
        rw [List.cons_append, List.head?_cons]
        exact hd
    rw [hc rfl d hhead] at hwd
    cases hwd

lemma findallTags_scanTagsFuel :
    ∀ (fuel : Nat) (l : List Char), l.length ≤ fuel →
      FindallTags l (scanTagsFuel fuel l) := by
  intro fuel
  induction fuel with
  | zero =>
    intro l hl
    have hnil : l = [] := List.eq_nil_of_length_eq_zero (Nat.le_zero.mp hl)
    subst hnil
    exact FindallTags.nil [] noTagStart_nil
  | succ n ih =>
    intro l hl
    match l with
    | [] => exact FindallTags.nil [] noTagStart_nil
    | c :: rest =>
      rw [scanTagsFuel]
      by_cases h : c = '#' ∧ rest.takeWhile isWordChar ≠ []
      · rw [if_pos h]
        obtain ⟨hc, htw⟩ := h
        subst hc
        have hdecomp : ('#' : Char) :: rest =
            [] ++ '#' :: (rest.takeWhile isWordChar ++ rest.dropWhile isWordChar) := by
          rw [List.takeWhile_append_dropWhile, List.nil_append]
        rw [hdecomp]
        refine FindallTags.cons [] _ _ _ noTagStart_nil htw
          (fun x hx => List.mem_takeWhile_imp hx) (fun x hx => dropWhile_head_fails x hx)
          (ih _ ?_)
        calc (rest.dropWhile isWordChar).length
            ≤ rest.length := (List.dropWhile_sublist _).length_le
          _ ≤ n := Nat.le_of_succ_le_succ (by simpa using hl)
      · rw [if_neg h]
        apply findallTags_skip (ih rest (Nat.le_of_succ_le_succ (by simpa using hl)))
        intro hc d hd
        subst hc
        have htw : rest.takeWhile isWordChar = [] := by
          by_contra hne
          exact h ⟨rfl, hne⟩
        exact head_fails_of_takeWhile_nil htw d hd

/-- Claim C6: `extract_hashtags` maps `None` and the empty string to the empty
sequence, and on any text its output decomposes the text into match-free gaps
and exactly the returned tokens in order of appearance, each token `#` plus a
non-empty maximal run of word characters, duplicates and original case
preserved (the tokens are literal segments of the text). -/
theorem extract_hashtags_ok (s : List Char) :
    extract_hashtags none = [] ∧ extract_hashtags (some []) = [] ∧
    FindallTags s (extract_hashtags (some s)) := by
  refine ⟨rfl, rfl, ?_⟩
  by_cases hs : s = []
  · subst hs
    exact FindallTags.nil [] noTagStart_nil
  · have hunfold : extract_hashtags (some s) = scanTags s := by
      rw [extract_hashtags, if_neg hs]
    rw [hunfold]
    exact findallTags_scanTagsFuel s.length s (Nat.le_refl _)
